import Mathlib

/-!
Verification of the autotrader coordinator (`src/main.py`, with the venue
wrapper `src/pocket_option_api.py`) against its specification.

The embedding models the signal-processing loop `check_new_signals_and_trade`,
the confidence gate `trade_on_signal`, credential decryption `decrypt_data`,
and one tick of `autotrader_management_loop` as pure Lean functions over an
explicit store of signals and an association list of sessions.  Numeric
confidences (Python floats compared against the literals 90.0 and 95.0, all
exactly representable) are modelled as rationals; timestamps as integers
(seconds).  Effects on the database are modelled by threading the signal
store; trade placements are recorded in a list of `Trade` records.
-/

namespace Autotrader

/-- A row of the `signals` table as `main.py` reads it: `id`, optional
`asset`/`direction`/`confidence` fields (absent keys are `none`),
`created_at`, and the `processed_by_autotrader` flag. -/
structure Signal where
  id : Nat
  asset : Option String
  direction : Option String
  confidence : Option ℚ
  created_at : Int
  processed_by_autotrader : Bool
deriving DecidableEq, Repr

/-- A trade placement attempted through `po_api.place_trade`, tagged with the
user whose session placed it and the signal being processed at the time. -/
structure Trade where
  user_id : Nat
  signal_id : Nat
  asset : String
  direction : String
deriving DecidableEq, Repr

/-- `AUTOTRADE_RULES['MIN_CONFIDENCE']` in `main.py`. -/
def MIN_CONFIDENCE : ℚ := 95

/-- The default used by `signal.get('confidence', 90.0)`. -/
def DEFAULT_CONFIDENCE : ℚ := 90

/-- The staleness window: `timedelta(minutes=1)` in seconds. -/
def STALE_SECONDS : Int := 60

/-- Python truthiness of `signal.get(field)` for a string field: falsy when
the key is absent or the value is the empty string. -/
def falsyStr : Option String → Bool
  | none => true
  | some s => s == ""

/-- `str.lower()` (over the character sequence, so that it evaluates in the
kernel). -/
def lowerString (s : String) : String :=
  ⟨s.data.map Char.toLower⟩

/-- The gate of `trade_on_signal`: a placement is attempted unless
`confidence < AUTOTRADE_RULES['MIN_CONFIDENCE']`.  (The stub
`place_trade` always succeeds on a connected session.) -/
def trade_on_signal (confidence : ℚ) : Bool :=
  !(confidence < MIN_CONFIDENCE)

/-- The branch taken by the per-signal body of `check_new_signals_and_trade`,
in source order: skip on missing/empty `asset`/`direction`, then skip when the
signal is older than one minute, then the confidence gate, else trade. -/
inductive Decision where
  | skip_invalid
  | expire
  | reject
  | admitted
deriving DecidableEq, Repr

/-- The decision the loop body of `check_new_signals_and_trade` reaches for
one signal, mirroring the source's branch order. -/
def admitDecision (now : Int) (s : Signal) : Decision :=
  if falsyStr s.asset || falsyStr s.direction then .skip_invalid
  else if now - s.created_at > STALE_SECONDS then .expire
  else if s.confidence.getD DEFAULT_CONFIDENCE < MIN_CONFIDENCE then .reject
  else .admitted

/-- `supabase.table('signals').update({'processed_by_autotrader': True}).eq('id', sid)`. -/
def markProcessed (store : List Signal) (sid : Nat) : List Signal :=
  store.map (fun t => if t.id = sid then { t with processed_by_autotrader := true } else t)

/-- State threaded through one `check_new_signals_and_trade` call: the
current `signals` table and the placements made so far. -/
structure CheckState where
  store : List Signal
  trades : List Trade
deriving DecidableEq, Repr

/-- One iteration of the `for signal in signals:` loop in
`check_new_signals_and_trade`: skip (without marking) signals with
missing/empty `asset`/`direction` or older than one minute; otherwise run
`trade_on_signal` with `signal.get('confidence', 90.0)` and then mark the
signal processed. -/
def processSignal (user_id : Nat) (now : Int) (st : CheckState) (s : Signal) : CheckState :=
  if falsyStr s.asset || falsyStr s.direction then st
  else if now - s.created_at > STALE_SECONDS then st
  else
    let conf := s.confidence.getD DEFAULT_CONFIDENCE
    let st' :=
      if trade_on_signal conf then
        { st with trades := st.trades ++
            [{ user_id := user_id, signal_id := s.id,
               asset := s.asset.getD "", direction := lowerString (s.direction.getD "") }] }
      else st
    { st' with store := markProcessed st'.store s.id }

/-- Insert keeping a newest-first order (strictly newer goes in front;
ties keep their relative order, making the sort stable). -/
def insertByNewest (s : Signal) : List Signal → List Signal
  | [] => [s]
  | t :: ts => if t.created_at < s.created_at then s :: t :: ts else t :: insertByNewest s ts

/-- Stable sort by `created_at`, newest first
(`order('created_at', desc=True)`). -/
def sortByNewest (l : List Signal) : List Signal :=
  l.foldr insertByNewest []

/-- The fetch in `check_new_signals_and_trade`:
`select('*').eq('processed_by_autotrader', False).order('created_at', desc=True).limit(5)`.
Note there is no per-user filter: the query does not mention a user. -/
def fetchSignals (store : List Signal) : List Signal :=
  (sortByNewest (store.filter (fun s => !s.processed_by_autotrader))).take 5

/-- One call of `check_new_signals_and_trade` for one user: fetch the batch,
then run the loop body on each fetched signal in order.  Returns the updated
store together with the placements made by this call. -/
def check_new_signals_and_trade (user_id : Nat) (now : Int) (store : List Signal) : CheckState :=
  (fetchSignals store).foldl (processSignal user_id now) ⟨store, []⟩

/-- A row of the `users` table, with the fields
`autotrader_management_loop` consumes. -/
structure User where
  user_id : Nat
  pocket_option_password : String
  is_real_account : Bool
deriving DecidableEq, Repr

/-- A `PocketOptionAPI` object after construction/connect (`ssid`, `demo`,
`connected` fields of the wrapper class). -/
structure PocketOptionAPI where
  ssid : String
  demo : Bool
  connected : Bool
deriving DecidableEq, Repr

/-- The environment a tick runs against:
`fernetDecrypt` abstracts `cipher.decrypt` (`none` models the exception the
Fernet layer raises on a malformed/key-mismatched token); `initRaises`
abstracts an exception escaping the session-initialization `try` block for a
given user; `connectOk` abstracts the boolean result of `po_api.connect()`
(the shipped stub always returns `true`). -/
structure Env where
  fernetDecrypt : String → Option String
  initRaises : Nat → Bool
  connectOk : Nat → Bool

/-- `decrypt_data` in `main.py`: on any decryption failure the exception is
caught and the empty string is returned. -/
def decrypt_data (env : Env) (data : String) : String :=
  (env.fernetDecrypt data).getD ""

/-- Accumulator for the per-user loop of the management tick (`active_sessions`
plus the bookkeeping this analysis records: successful opens, attempted opens
with the ssid used, and the queued `check_new_signals_and_trade` tasks). -/
structure LoopAcc where
  sessions : List (Nat × PocketOptionAPI)
  opened : List Nat
  attempted : List (Nat × String)
  tasks : List Nat
deriving Repr

/-- `user_id in active_sessions` (dict key membership). -/
def hasKey (k : Nat) (l : List (Nat × PocketOptionAPI)) : Bool :=
  l.any (fun p => p.1 == k)

/-- One iteration of the `for user in active_users:` loop (steps 3–4 of the
tick): if the user has no session, try to open one — an exception hits the
`except: continue` path; a failed `connect()` leaves the user sessionless —
then queue a signal check whenever a session now exists. -/
def initStep (env : Env) (acc : LoopAcc) (u : User) : LoopAcc :=
  let acc1 :=
    if hasKey u.user_id acc.sessions then acc
    else if env.initRaises u.user_id then acc
    else
      let ssid := decrypt_data env u.pocket_option_password
      let a := { acc with attempted := acc.attempted ++ [(u.user_id, ssid)] }
      if env.connectOk u.user_id then
        { a with
            sessions := a.sessions ++
              [(u.user_id, { ssid := ssid, demo := !u.is_real_account, connected := true })],
            opened := a.opened ++ [u.user_id] }
      else a
  if hasKey u.user_id acc1.sessions then { acc1 with tasks := acc1.tasks ++ [u.user_id] }
  else acc1

/-- The outcome of one iteration of `autotrader_management_loop`. -/
structure TickResult where
  sessions : List (Nat × PocketOptionAPI)
  closed : List Nat
  opened : List Nat
  attempted : List (Nat × String)
  tasks : List Nat
  store : List Signal
  trades : List Trade
deriving Repr

/-- One `check_new_signals_and_trade` call threaded through a
(store, accumulated trades) pair. -/
def runCallsStep (st : List Signal × List Trade) (c : Nat × Int) :
    List Signal × List Trade :=
  ((check_new_signals_and_trade c.1 c.2 st.1).store,
    st.2 ++ (check_new_signals_and_trade c.1 c.2 st.1).trades)

/-- One tick of `autotrader_management_loop`: close sessions of users no
longer active, open sessions for new active users, then run
`check_new_signals_and_trade` for every user holding a session.  The checks
are gathered but contain no suspension point, so within one process they run
to completion one after another in task order; they are therefore modelled
sequentially, threading the store. -/
def management_tick (env : Env) (users : List User)
    (sessions₀ : List (Nat × PocketOptionAPI)) (store₀ : List Signal) (now : Int) :
    TickResult :=
  let desired := users.map User.user_id
  let kept := sessions₀.filter (fun p => desired.contains p.1)
  let closed := (sessions₀.filter (fun p => !desired.contains p.1)).map Prod.fst
  let acc := users.foldl (initStep env) ⟨kept, [], [], []⟩
  let fin := (acc.tasks.map (fun uid => (uid, now))).foldl runCallsStep (store₀, [])
  ⟨acc.sessions, closed, acc.opened, acc.attempted, acc.tasks, fin.1, fin.2⟩

/-- A sequence of `check_new_signals_and_trade` calls (any users, any tick
times) run one after another against the shared store — the sequential
executions one process produces. -/
def runCalls (calls : List (Nat × Int)) (store₀ : List Signal) :
    List Signal × List Trade :=
  calls.foldl runCallsStep (store₀, [])

/-- Where one concurrently running `check_new_signals_and_trade` call stands:
before its fetch, or holding the rest of its fetched batch. -/
inductive ProcPhase where
  | toFetch
  | running (pending : List Signal)
deriving DecidableEq, Repr

/-- Several processes (e.g. two deployments of the service polling the same
database) each running `check_new_signals_and_trade`, interleaved over the
shared `signals` table.  Each process is a (user_id, phase) pair. -/
structure ConcState where
  store : List Signal
  trades : List Trade
  procs : List (Nat × ProcPhase)
deriving DecidableEq, Repr

/-- One atomic step of process `i`: either its fetch (one query), or the
whole loop body for the next signal of its batch.  This granularity is
coarser than the real interleaving (gate, venue call and mark are separate
operations), so every trace of this model is realizable by the source. -/
def stepProc (now : Int) (cs : ConcState) (i : Nat) : ConcState :=
  match cs.procs[i]? with
  | none => cs
  | some (uid, .toFetch) =>
      { cs with procs := cs.procs.set i (uid, .running (fetchSignals cs.store)) }
  | some (_, .running []) => cs
  | some (uid, .running (s :: rest)) =>
      let r := processSignal uid now ⟨cs.store, cs.trades⟩ s
      { store := r.store, trades := r.trades, procs := cs.procs.set i (uid, .running rest) }

/-- Run a schedule (a list of process indices) over the concurrent state. -/
def runSchedule (now : Int) (cs : ConcState) (sched : List Nat) : ConcState :=
  sched.foldl (stepProc now) cs

/-- The ids of the rows of the signal store. -/
def idsOf (store : List Signal) : List Nat :=
  store.map Signal.id

/-- The store records signal `sid` as processed: some row with id `sid` has
`processed_by_autotrader` set. -/
def ProcessedIn (store : List Signal) (sid : Nat) : Prop :=
  ∃ s ∈ store, s.id = sid ∧ s.processed_by_autotrader = true

end Autotrader

namespace Autotrader

/-! ### Properties of the fetch (sorting, bound, unprocessed filter) -/

theorem insertByNewest_perm (s : Signal) (l : List Signal) :
    List.Perm (insertByNewest s l) (s :: l) := by
  induction l with
  | nil => exact List.Perm.refl _
  | cons t ts ih =>
    by_cases h : t.created_at < s.created_at
    · simp [insertByNewest, h]
    · simp only [insertByNewest, if_neg h]
      exact (ih.cons t).trans (List.Perm.swap s t ts)

theorem sortByNewest_perm (l : List Signal) : List.Perm (sortByNewest l) l := by
  induction l with
  | nil => exact List.Perm.refl _
  | cons t ts ih =>
    exact (insertByNewest_perm t (sortByNewest ts)).trans (ih.cons t)

theorem pairwise_insertByNewest (s : Signal) (l : List Signal)
    (h : l.Pairwise (fun a b => b.created_at ≤ a.created_at)) :
    (insertByNewest s l).Pairwise (fun a b => b.created_at ≤ a.created_at) := by
  induction l with
  | nil => simp [insertByNewest]
  | cons t ts ih =>
    rw [List.pairwise_cons] at h
    by_cases hc : t.created_at < s.created_at
    · simp only [insertByNewest, if_pos hc]
      rw [List.pairwise_cons]
      refine ⟨?_, List.pairwise_cons.mpr h⟩
      intro y hy
      rcases List.mem_cons.mp hy with rfl | hy
      · exact le_of_lt hc
      · exact le_trans (h.1 y hy) (le_of_lt hc)
    · simp only [insertByNewest, if_neg hc]
      rw [List.pairwise_cons]
      refine ⟨?_, ih h.2⟩
      intro y hy
      rcases List.mem_cons.mp ((insertByNewest_perm s ts).mem_iff.mp hy) with rfl | hy'
      · exact not_lt.mp hc
      · exact h.1 y hy'

theorem sortByNewest_sorted (l : List Signal) :
    (sortByNewest l).Pairwise (fun a b => b.created_at ≤ a.created_at) := by
  induction l with
  | nil => simp [sortByNewest]
  | cons t ts ih => exact pairwise_insertByNewest t (sortByNewest ts) ih

theorem fetchSignals_length (store : List Signal) : (fetchSignals store).length ≤ 5 := by
  simp [fetchSignals]

theorem fetchSignals_sorted (store : List Signal) :
    (fetchSignals store).Pairwise (fun a b => b.created_at ≤ a.created_at) :=
  (sortByNewest_sorted _).sublist (List.take_sublist 5 _)

theorem mem_fetchSignals {s : Signal} {store : List Signal} (h : s ∈ fetchSignals store) :
    s ∈ store ∧ s.processed_by_autotrader = false := by
  have h1 : s ∈ sortByNewest (store.filter (fun s => !s.processed_by_autotrader)) :=
    (List.take_sublist 5 _).mem h
  have h2 := (sortByNewest_perm _).mem_iff.mp h1
  have h3 := List.mem_filter.mp h2
  exact ⟨h3.1, by simpa using h3.2⟩

theorem fetch_ids_nodup {store : List Signal} (h : (idsOf store).Nodup) :
    ((fetchSignals store).map Signal.id).Nodup := by
  have hf : ((store.filter (fun s => !s.processed_by_autotrader)).map Signal.id).Nodup :=
    ((List.filter_sublist store).map Signal.id).nodup h
  have hs : ((sortByNewest (store.filter (fun s => !s.processed_by_autotrader))).map
      Signal.id).Nodup :=
    (((sortByNewest_perm _).map Signal.id).nodup_iff).mpr hf
  exact (((List.take_sublist 5 _).map Signal.id)).nodup hs

/-! ### The processed flag and the per-signal loop body -/

theorem idsOf_markProcessed (store : List Signal) (sid : Nat) :
    idsOf (markProcessed store sid) = idsOf store := by
  unfold idsOf markProcessed
  rw [List.map_map]
  apply List.map_congr_left
  intro a _
  by_cases h : a.id = sid <;> simp [h]

theorem ProcessedIn_markProcessed_self {store : List Signal} {sid : Nat}
    (h : sid ∈ idsOf store) : ProcessedIn (markProcessed store sid) sid := by
  obtain ⟨s, hs, hid⟩ := List.mem_map.mp h
  exact ⟨{ s with processed_by_autotrader := true },
    List.mem_map.mpr ⟨s, hs, by simp [hid]⟩, hid, rfl⟩

theorem ProcessedIn.mono_mark {store : List Signal} {sid : Nat} (sid' : Nat)
    (h : ProcessedIn store sid) : ProcessedIn (markProcessed store sid') sid := by
  obtain ⟨s, hs, hid, hp⟩ := h
  by_cases he : s.id = sid'
  · exact ⟨{ s with processed_by_autotrader := true },
      List.mem_map.mpr ⟨s, hs, by simp [he]⟩, hid, rfl⟩
  · exact ⟨s, List.mem_map.mpr ⟨s, hs, by simp [he]⟩, hid, hp⟩

theorem processSignal_store_eq (u : Nat) (now : Int) (st : CheckState) (s : Signal) :
    (processSignal u now st s).store = st.store ∨
      (processSignal u now st s).store = markProcessed st.store s.id := by
  by_cases h1 : (falsyStr s.asset || falsyStr s.direction) = true
  · left; simp [processSignal, h1]
  · by_cases h2 : now - s.created_at > STALE_SECONDS
    · left; simp [processSignal, h1, h2]
    · right
      by_cases h3 : trade_on_signal (s.confidence.getD DEFAULT_CONFIDENCE) = true <;>
        simp [processSignal, h1, h2, h3]

theorem processSignal_ids (u : Nat) (now : Int) (st : CheckState) (s : Signal) :
    idsOf (processSignal u now st s).store = idsOf st.store := by
  rcases processSignal_store_eq u now st s with h | h <;> rw [h]
  exact idsOf_markProcessed _ _

theorem processSignal_trades_eq (u : Nat) (now : Int) (st : CheckState) (s : Signal) :
    (processSignal u now st s).trades = st.trades ∨
      ∃ t : Trade, t.signal_id = s.id ∧
        (processSignal u now st s).trades = st.trades ++ [t] ∧
        (processSignal u now st s).store = markProcessed st.store s.id := by
  by_cases h1 : (falsyStr s.asset || falsyStr s.direction) = true
  · left; simp [processSignal, h1]
  · by_cases h2 : now - s.created_at > STALE_SECONDS
    · left; simp [processSignal, h1, h2]
    · by_cases h3 : trade_on_signal (s.confidence.getD DEFAULT_CONFIDENCE) = true
      · right
        refine ⟨⟨u, s.id, s.asset.getD "", lowerString (s.direction.getD "")⟩, rfl, ?_, ?_⟩ <;>
          simp [processSignal, h1, h2, h3]
      · left; simp [processSignal, h1, h2, h3]

theorem processSignal_store_marked (u : Nat) (now : Int) (st : CheckState) (s : Signal)
    (hA : falsyStr s.asset = false) (hD : falsyStr s.direction = false)
    (hF : now - s.created_at ≤ STALE_SECONDS) :
    (processSignal u now st s).store = markProcessed st.store s.id := by
  have hns : ¬(now - s.created_at > STALE_SECONDS) := not_lt.mpr hF
  by_cases h3 : trade_on_signal (s.confidence.getD DEFAULT_CONFIDENCE) = true <;>
    simp [processSignal, hA, hD, hns, h3]

theorem ProcessedIn.mono_processSignal {sid : Nat} (u : Nat) (now : Int)
    (st : CheckState) (s : Signal)
    (h : ProcessedIn st.store sid) : ProcessedIn (processSignal u now st s).store sid := by
  rcases processSignal_store_eq u now st s with he | he <;> rw [he]
  · exact h
  · exact h.mono_mark _

theorem ProcessedIn.mono_foldl {sid : Nat} (u : Nat) (now : Int)
    (batch : List Signal) (st : CheckState)
    (h : ProcessedIn st.store sid) :
    ProcessedIn ((batch.foldl (processSignal u now) st)).store sid := by
  induction batch generalizing st with
  | nil => exact h
  | cons x rest ih => exact ih _ (h.mono_processSignal u now st x)

theorem foldl_processSignal_ids (u : Nat) (now : Int) (batch : List Signal)
    (st : CheckState) :
    idsOf ((batch.foldl (processSignal u now) st)).store = idsOf st.store := by
  induction batch generalizing st with
  | nil => rfl
  | cons x rest ih => rw [List.foldl_cons, ih, processSignal_ids]

/-! ### One `check_new_signals_and_trade` call as a whole -/

theorem check_ids (u : Nat) (now : Int) (store : List Signal) :
    idsOf (check_new_signals_and_trade u now store).store = idsOf store :=
  foldl_processSignal_ids u now (fetchSignals store) ⟨store, []⟩

theorem check_mono_processed {sid : Nat} (u : Nat) (now : Int) (store : List Signal)
    (h : ProcessedIn store sid) :
    ProcessedIn (check_new_signals_and_trade u now store).store sid :=
  ProcessedIn.mono_foldl u now (fetchSignals store) ⟨store, []⟩ h

theorem foldl_processSignal_trades (u : Nat) (now : Int) (batch : List Signal)
    (st : CheckState) :
    ∃ Δ : List Trade,
      (batch.foldl (processSignal u now) st).trades = st.trades ++ Δ ∧
      List.Sublist (Δ.map Trade.signal_id) (batch.map Signal.id) := by
  induction batch generalizing st with
  | nil => exact ⟨[], by simp, by simp⟩
  | cons s rest ih =>
    obtain ⟨Δ, hΔ, hsub⟩ := ih (processSignal u now st s)
    rcases processSignal_trades_eq u now st s with htr | ⟨t, hts, htr, _⟩
    · refine ⟨Δ, ?_, hsub.trans (List.sublist_cons_self _ _)⟩
      rw [List.foldl_cons] at *
      rw [hΔ, htr]
    · refine ⟨t :: Δ, ?_, ?_⟩
      · rw [List.foldl_cons] at *
        rw [hΔ, htr, List.append_assoc]
        rfl
      · rw [List.map_cons, hts]
        exact hsub.cons₂ s.id

theorem check_trades_sub (u : Nat) (now : Int) (store : List Signal) :
    List.Sublist ((check_new_signals_and_trade u now store).trades.map Trade.signal_id)
      ((fetchSignals store).map Signal.id) := by
  obtain ⟨Δ, hΔ, hsub⟩ := foldl_processSignal_trades u now (fetchSignals store) ⟨store, []⟩
  unfold check_new_signals_and_trade
  rw [hΔ]
  simpa using hsub

theorem foldl_processSignal_processed (u : Nat) (now : Int) (batch : List Signal)
    (st : CheckState)
    (hids : ∀ s ∈ batch, s.id ∈ idsOf st.store) :
    ∀ t ∈ (batch.foldl (processSignal u now) st).trades,
      t ∈ st.trades ∨
        ProcessedIn (batch.foldl (processSignal u now) st).store t.signal_id := by
  induction batch generalizing st with
  | nil => exact fun t ht => Or.inl ht
  | cons s rest ih =>
    intro t ht
    have hids' : ∀ x ∈ rest, x.id ∈ idsOf (processSignal u now st s).store := by
      intro x hx
      rw [processSignal_ids]
      exact hids x (List.mem_cons_of_mem _ hx)
    rw [List.foldl_cons] at ht
    rcases ih (processSignal u now st s) hids' t ht with hin | hproc
    · rcases processSignal_trades_eq u now st s with htr | ⟨t', hts, htr, hst⟩
      · rw [htr] at hin
        exact Or.inl hin
      · rw [htr] at hin
        rcases List.mem_append.mp hin with hold | hnew
        · exact Or.inl hold
        · right
          have ht' : t = t' := by simpa using hnew
          have hP : ProcessedIn (processSignal u now st s).store t.signal_id := by
            rw [ht', hts, hst]
            exact ProcessedIn_markProcessed_self (hids s (List.mem_cons_self _ _))
          rw [List.foldl_cons]
          exact hP.mono_foldl u now rest _
    · rw [List.foldl_cons]
      exact Or.inr hproc

theorem check_trades_processed (u : Nat) (now : Int) (store : List Signal) :
    ∀ t ∈ (check_new_signals_and_trade u now store).trades,
      ProcessedIn (check_new_signals_and_trade u now store).store t.signal_id := by
  intro t ht
  have hids : ∀ s ∈ fetchSignals store, s.id ∈ idsOf (⟨store, []⟩ : CheckState).store := by
    intro s hs
    exact List.mem_map.mpr ⟨s, (mem_fetchSignals hs).1, rfl⟩
  rcases foldl_processSignal_processed u now (fetchSignals store) ⟨store, []⟩ hids t ht with
    h | h
  · cases h
  · exact h

theorem not_in_fetch_of_processed {store : List Signal} {sid : Nat}
    (h : (idsOf store).Nodup) (hp : ProcessedIn store sid) :
    sid ∉ (fetchSignals store).map Signal.id := by
  intro hmem
  obtain ⟨s, hs, hsid⟩ := List.mem_map.mp hmem
  obtain ⟨hstore, hunproc⟩ := mem_fetchSignals hs
  obtain ⟨w, hw, hwid, hwp⟩ := hp
  have hsw : s = w := List.inj_on_of_nodup_map h hstore hw (hsid.trans hwid.symm)
  rw [hsw, hwp] at hunproc
  cases hunproc

theorem foldl_processSignal_user_indep (u₁ u₂ : Nat) (now : Int) (batch : List Signal)
    (st₁ st₂ : CheckState)
    (hst : st₁.store = st₂.store)
    (htr : st₁.trades.map Trade.signal_id = st₂.trades.map Trade.signal_id) :
    (batch.foldl (processSignal u₁ now) st₁).store =
        (batch.foldl (processSignal u₂ now) st₂).store ∧
      (batch.foldl (processSignal u₁ now) st₁).trades.map Trade.signal_id =
        (batch.foldl (processSignal u₂ now) st₂).trades.map Trade.signal_id := by
  induction batch generalizing st₁ st₂ with
  | nil => exact ⟨hst, htr⟩
  | cons s rest ih =>
    rw [List.foldl_cons, List.foldl_cons]
    apply ih
    · by_cases h1 : (falsyStr s.asset || falsyStr s.direction) = true
      · simp [processSignal, h1, hst]
      · by_cases h2 : now - s.created_at > STALE_SECONDS
        · simp [processSignal, h1, h2, hst]
        · by_cases h3 : trade_on_signal (s.confidence.getD DEFAULT_CONFIDENCE) = true <;>
            simp [processSignal, h1, h2, h3, hst]
    · by_cases h1 : (falsyStr s.asset || falsyStr s.direction) = true
      · simp [processSignal, h1, htr]
      · by_cases h2 : now - s.created_at > STALE_SECONDS
        · simp [processSignal, h1, h2, htr]
        · by_cases h3 : trade_on_signal (s.confidence.getD DEFAULT_CONFIDENCE) = true <;>
            simp [processSignal, h1, h2, h3, htr]

theorem check_sids_user_indep (u₁ u₂ : Nat) (now : Int) (store : List Signal) :
    (check_new_signals_and_trade u₁ now store).trades.map Trade.signal_id =
      (check_new_signals_and_trade u₂ now store).trades.map Trade.signal_id :=
  (foldl_processSignal_user_indep u₁ u₂ now (fetchSignals store)
    ⟨store, []⟩ ⟨store, []⟩ rfl rfl).2

/-- C4: a signal whose `created_at` is more than the staleness window (60s)
in the past at admission time is never admitted or traded — the loop body
leaves the state untouched, regardless of the signal's confidence — and for a
signal with usable `asset`/`direction` fields the decision reached is the
staleness skip (`Expire`). -/
theorem C4_stale_signal_never_admitted (u : Nat) (now : Int) (st : CheckState) (s : Signal)
    (h : now - s.created_at > STALE_SECONDS) :
    processSignal u now st s = st ∧ admitDecision now s ≠ Decision.admitted ∧
      (falsyStr s.asset = false → falsyStr s.direction = false →
        admitDecision now s = Decision.expire) := by
  by_cases hf : (falsyStr s.asset || falsyStr s.direction) = true
  · refine ⟨by simp [processSignal, hf], by simp [admitDecision, hf], ?_⟩
    intro hA hD
    simp [hA, hD] at hf
  · refine ⟨by simp [processSignal, hf, h], by simp [admitDecision, hf, h], fun _ _ => ?_⟩
    simp [admitDecision, hf, h]

/-- Witness for C4 at a concrete stale signal. -/
theorem C4_witness :
    processSignal 7 100 ⟨[], []⟩ ⟨1, some "EURUSD", some "CALL", some 99, 0, false⟩
        = ⟨[], []⟩ ∧
      admitDecision 100 ⟨1, some "EURUSD", some "CALL", some 99, 0, false⟩ ≠ Decision.admitted ∧
      (falsyStr (some "EURUSD") = false → falsyStr (some "CALL") = false →
        admitDecision 100 ⟨1, some "EURUSD", some "CALL", some 99, 0, false⟩ = Decision.expire) :=
  C4_stale_signal_never_admitted 7 100 ⟨[], []⟩
    ⟨1, some "EURUSD", some "CALL", some 99, 0, false⟩ (by decide)

/-- C5: the confidence gate is boundary-inclusive.  For a fresh signal with
usable fields and confidence `c`: when `c < MIN_CONFIDENCE`, no trade is
placed (and the decision is the confidence reject); when
`c = MIN_CONFIDENCE`, a placement is attempted (the decision admits). -/
theorem C5_confidence_gate_boundary (u : Nat) (now : Int) (st : CheckState) (s : Signal)
    (c : ℚ)
    (hA : falsyStr s.asset = false) (hD : falsyStr s.direction = false)
    (hF : now - s.created_at ≤ STALE_SECONDS) (hC : s.confidence = some c) :
    (c < MIN_CONFIDENCE →
        (processSignal u now st s).trades = st.trades ∧
          admitDecision now s = Decision.reject) ∧
    (c = MIN_CONFIDENCE →
        (processSignal u now st s).trades = st.trades ++
            [⟨u, s.id, s.asset.getD "", lowerString (s.direction.getD "")⟩] ∧
          admitDecision now s = Decision.admitted) := by
  have hns : ¬(now - s.created_at > STALE_SECONDS) := not_lt.mpr hF
  constructor
  · intro hlt
    constructor
    · simp [processSignal, hA, hD, hns, hC, trade_on_signal, hlt]
    · simp [admitDecision, hA, hD, hns, hC, hlt]
  · intro heq
    have hnlt : ¬(c < MIN_CONFIDENCE) := by simp [heq]
    constructor
    · simp [processSignal, hA, hD, hns, hC, trade_on_signal, hnlt]
    · simp [admitDecision, hA, hD, hns, hC, hnlt]

/-- Witness for C5 at confidence exactly 95 (admitted) and 94 (rejected). -/
theorem C5_witness :
    (processSignal 7 10 ⟨[], []⟩ ⟨2, some "EURUSD", some "CALL", some 95, 0, false⟩).trades
        = [⟨7, 2, "EURUSD", "call"⟩] ∧
      admitDecision 10 ⟨2, some "EURUSD", some "CALL", some 95, 0, false⟩ = Decision.admitted ∧
      (processSignal 7 10 ⟨[], []⟩ ⟨2, some "EURUSD", some "CALL", some 94, 0, false⟩).trades
        = [] ∧
      admitDecision 10 ⟨2, some "EURUSD", some "CALL", some 94, 0, false⟩ = Decision.reject := by
  have h95 := C5_confidence_gate_boundary 7 10 ⟨[], []⟩
    ⟨2, some "EURUSD", some "CALL", some 95, 0, false⟩ 95
    (by decide) (by decide) (by decide) rfl
  have h94 := C5_confidence_gate_boundary 7 10 ⟨[], []⟩
    ⟨2, some "EURUSD", some "CALL", some 94, 0, false⟩ 94
    (by decide) (by decide) (by decide) rfl
  have ha := h95.2 rfl
  have hr := h94.1 (by norm_num [MIN_CONFIDENCE])
  exact ⟨by simpa using ha.1, ha.2, by simpa using hr.1, hr.2⟩

/-- C10: a fresh, well-formed signal lacking a `confidence` field gets the
default 90.0; since 90 < 95 = MIN_CONFIDENCE, no trade is placed for it (the
decision is the confidence reject), though it is still marked processed. -/
theorem C10_missing_confidence_defaults_to_90 (u : Nat) (now : Int) (st : CheckState)
    (s : Signal)
    (hA : falsyStr s.asset = false) (hD : falsyStr s.direction = false)
    (hF : now - s.created_at ≤ STALE_SECONDS) (hC : s.confidence = none) :
    s.confidence.getD DEFAULT_CONFIDENCE = 90 ∧
      admitDecision now s = Decision.reject ∧
      (processSignal u now st s).trades = st.trades ∧
      (processSignal u now st s).store = markProcessed st.store s.id := by
  have hns : ¬(now - s.created_at > STALE_SECONDS) := not_lt.mpr hF
  have hlt : DEFAULT_CONFIDENCE < MIN_CONFIDENCE := by
    norm_num [DEFAULT_CONFIDENCE, MIN_CONFIDENCE]
  refine ⟨by simp [hC, DEFAULT_CONFIDENCE], ?_, ?_, ?_⟩
  · simp [admitDecision, hA, hD, hns, hC, hlt]
  · simp [processSignal, hA, hD, hns, hC, trade_on_signal, hlt]
  · simp [processSignal, hA, hD, hns, hC, trade_on_signal, hlt]

/-- Witness for C10 at a concrete confidence-less signal. -/
theorem C10_witness :
    (some "EURUSD" : Option String) ≠ none ∧
      admitDecision 10 ⟨3, some "EURUSD", some "PUT", none, 0, false⟩ = Decision.reject ∧
      (processSignal 7 10 ⟨[⟨3, some "EURUSD", some "PUT", none, 0, false⟩], []⟩
          ⟨3, some "EURUSD", some "PUT", none, 0, false⟩).trades = [] := by
  have h := C10_missing_confidence_defaults_to_90 7 10
    ⟨[⟨3, some "EURUSD", some "PUT", none, 0, false⟩], []⟩
    ⟨3, some "EURUSD", some "PUT", none, 0, false⟩
    (by decide) (by decide) (by decide) rfl
  exact ⟨by decide, h.2.1, h.2.2.1⟩

/-! ### The sequential idempotency invariant (for C1) -/

theorem runCalls_inv (calls : List (Nat × Int)) (store : List Signal) (tr : List Trade)
    (h1 : (idsOf store).Nodup)
    (h2 : (tr.map Trade.signal_id).Nodup)
    (h3 : ∀ t ∈ tr, ProcessedIn store t.signal_id) :
    (idsOf (calls.foldl runCallsStep (store, tr)).1).Nodup ∧
      (((calls.foldl runCallsStep (store, tr)).2).map Trade.signal_id).Nodup := by
  induction calls generalizing store tr with
  | nil => exact ⟨h1, h2⟩
  | cons c rest ih =>
    rw [List.foldl_cons]
    show ((idsOf (rest.foldl runCallsStep
        ((check_new_signals_and_trade c.1 c.2 store).store,
          tr ++ (check_new_signals_and_trade c.1 c.2 store).trades)).1).Nodup ∧ _)
    apply ih
    · rw [check_ids]
      exact h1
    · rw [List.map_append]
      refine List.Nodup.append h2 ?_ ?_
      · exact (check_trades_sub c.1 c.2 store).nodup (fetch_ids_nodup h1)
      · intro a ha ha'
        obtain ⟨t, ht, hta⟩ := List.mem_map.mp ha
        have hp : ProcessedIn store a := hta ▸ h3 t ht
        exact not_in_fetch_of_processed h1 hp ((check_trades_sub c.1 c.2 store).mem ha')
    · intro t ht
      rcases List.mem_append.mp ht with hold | hnew
      · exact check_mono_processed c.1 c.2 store (h3 t hold)
      · exact check_trades_processed c.1 c.2 store t hnew

/-- Marking survives the rest of the loop: a valid, fresh signal of the batch
is recorded processed by the end of the fold. -/
theorem foldl_marks_valid (u : Nat) (now : Int) (batch : List Signal) (st : CheckState)
    (s : Signal) (hs : s ∈ batch) (hid : s.id ∈ idsOf st.store)
    (hA : falsyStr s.asset = false) (hD : falsyStr s.direction = false)
    (hF : now - s.created_at ≤ STALE_SECONDS) :
    ProcessedIn ((batch.foldl (processSignal u now) st)).store s.id := by
  induction batch generalizing st with
  | nil => cases hs
  | cons x rest ih =>
    rw [List.foldl_cons]
    rcases List.mem_cons.mp hs with rfl | hmem
    · have hstep : ProcessedIn (processSignal u now st s).store s.id := by
        rw [processSignal_store_marked u now st s hA hD hF]
        exact ProcessedIn_markProcessed_self hid
      exact hstep.mono_foldl u now rest _
    · exact ih _ hmem (by rw [processSignal_ids]; exact hid)

/-! ### C1: at-most-once placement -/

/-- C1 counterexample: the claim fails on the code.  Two concurrent
invocations of `check_new_signals_and_trade` for the same user (e.g. two
deployments polling the same database), racing on a single fresh, admissible
signal, each fetch the signal before either has marked it and each places a
trade: two placements reach the venue for the same (signal_id, user_id), and
the second admission is not rejected as a duplicate (the code has no
duplicate-rejection idempotency check at all). -/
theorem C1_counterexample :
    ((runSchedule 10
        ⟨[⟨1, some "EURUSD", some "CALL", some 97, 0, false⟩], [],
          [(7, ProcPhase.toFetch), (7, ProcPhase.toFetch)]⟩
        [0, 1, 0, 1]).trades.filter
      (fun t => t.signal_id == 1 && t.user_id == 7)).length = 2 := by decide

/-- C1 amended: in any purely sequential execution (which is what one process
yields — the gathered check coroutines hold no suspension point) at most one
placement occurs per signal id, hence per (signal_id, user_id): a traded
signal is marked `processed_by_autotrader` in the same loop iteration and is
never fetched again.  The code has no duplicate-rejecting admission step, and
(per the counterexample) concurrent processes racing on one signal can each
place a trade. -/
theorem C1_sequential_at_most_once (store₀ : List Signal) (calls : List (Nat × Int))
    (h : (idsOf store₀).Nodup) :
    (((runCalls calls store₀).2).map Trade.signal_id).Nodup ∧
      ∀ sid uid : Nat,
        ((runCalls calls store₀).2.filter
            (fun t => t.signal_id == sid && t.user_id == uid)).length ≤ 1 := by
  have hnd := (runCalls_inv calls store₀ [] h (by simp) (by simp)).2
  refine ⟨hnd, fun sid uid => ?_⟩
  set L := (runCalls calls store₀).2 with hL
  calc (L.filter (fun t => t.signal_id == sid && t.user_id == uid)).length
      = L.countP (fun t => t.signal_id == sid && t.user_id == uid) :=
        (List.countP_eq_length_filter _ _).symm
    _ ≤ L.countP (fun t => t.signal_id == sid) := by
        apply List.countP_mono_left
        intro t _ hp
        exact (Bool.and_elim_left hp)
    _ = (L.map Trade.signal_id).countP (fun a => a == sid) := by
        rw [List.countP_map]
        rfl
    _ = (L.map Trade.signal_id).count sid := rfl
    _ ≤ 1 := List.nodup_iff_count_le_one.mp hnd sid

/-- Witness for C1 (amended) on a concrete store and two sequential calls. -/
theorem C1_witness :
    (idsOf [⟨1, some "EURUSD", some "CALL", some 97, 0, false⟩]).Nodup ∧
      ((runCalls [(7, 10), (7, 40)]
          [⟨1, some "EURUSD", some "CALL", some 97, 0, false⟩]).2.filter
        (fun t => t.signal_id == 1 && t.user_id == 7)).length ≤ 1 :=
  ⟨by decide,
    (C1_sequential_at_most_once
      [⟨1, some "EURUSD", some "CALL", some 97, 0, false⟩]
      [(7, 10), (7, 40)] (by decide)).2 1 7⟩

/-! ### C2: the fetch is global, not per-user -/

/-- C2 counterexample: the claim fails on the code.  Signals carry no owner
and the fetch has no user filter, so the same signal is fetched for two
different users; under concurrent ticks it is executed on behalf of both
(user 1 and user 2 both place a trade for signal 10). -/
theorem C2_counterexample :
    fetchSignals [⟨10, some "EURUSD", some "CALL", some 97, 0, false⟩] =
        [⟨10, some "EURUSD", some "CALL", some 97, 0, false⟩] ∧
      (runSchedule 10
          ⟨[⟨10, some "EURUSD", some "CALL", some 97, 0, false⟩], [],
            [(1, ProcPhase.toFetch), (2, ProcPhase.toFetch)]⟩
          [0, 1, 0, 1]).trades =
        [⟨1, 10, "EURUSD", "call"⟩, ⟨2, 10, "EURUSD", "call"⟩] := by decide

/-- C2 amended: the fetch is global — the same at-most-5, unprocessed-only,
newest-first batch regardless of which user's check runs (the traded signal
ids do not depend on the user).  The batch bound, the unprocessed filter and
the ordering do hold. -/
theorem C2_global_fetch_bounded (store : List Signal) (u₁ u₂ : Nat) (now : Int) :
    (fetchSignals store).length ≤ 5 ∧
      (∀ s ∈ fetchSignals store, s ∈ store ∧ s.processed_by_autotrader = false) ∧
      (fetchSignals store).Pairwise (fun a b => b.created_at ≤ a.created_at) ∧
      (check_new_signals_and_trade u₁ now store).trades.map Trade.signal_id =
        (check_new_signals_and_trade u₂ now store).trades.map Trade.signal_id :=
  ⟨fetchSignals_length store, fun _ hs => mem_fetchSignals hs, fetchSignals_sorted store,
    check_sids_user_indep u₁ u₂ now store⟩

/-! ### C3: execution order within a user -/

/-- C3 counterexample: the claim fails on the code.  Two admitted signals
(created at 0 and at 30) are executed newest-first: the trade for the signal
created later (id 2) is placed before the trade for the older one (id 1),
refuting "the oldest admitted signal is executed first". -/
theorem C3_counterexample :
    (check_new_signals_and_trade 7 40
          [⟨1, some "EURUSD", some "CALL", some 97, 0, false⟩,
           ⟨2, some "GBPUSD", some "PUT", some 99, 30, false⟩]).trades.map Trade.signal_id
        = [2, 1] ∧
      admitDecision 40 ⟨1, some "EURUSD", some "CALL", some 97, 0, false⟩ = Decision.admitted ∧
      admitDecision 40 ⟨2, some "GBPUSD", some "PUT", some 99, 30, false⟩ = Decision.admitted := by
  decide

/-- C3 amended: within one user the admitted signals of a batch are executed
in the fetched order, which is newest-first (descending `created_at`), the
oldest admitted signal last — the fetch orders by `created_at` descending and
the loop body runs in batch order. -/
theorem C3_newest_first_order (u : Nat) (now : Int) (store : List Signal) :
    List.Sublist ((check_new_signals_and_trade u now store).trades.map Trade.signal_id)
        ((fetchSignals store).map Signal.id) ∧
      (fetchSignals store).Pairwise (fun a b => b.created_at ≤ a.created_at) :=
  ⟨check_trades_sub u now store, fetchSignals_sorted store⟩

/-! ### C6: terminal, inspectable outcomes -/

/-- C6 counterexample: the claim fails on the code.  A stale but well-formed
signal is fetched, yet the loop `continue`s before the mark: the store is
unchanged (the signal stays unprocessed forever, re-fetched every tick) and
no trade or status transition records its fate — a silent drop. -/
theorem C6_counterexample :
    ((⟨3, some "EURUSD", some "CALL", some 97, -100, false⟩ : Signal) ∈
        fetchSignals [⟨3, some "EURUSD", some "CALL", some 97, -100, false⟩]) ∧
      check_new_signals_and_trade 7 0
          [⟨3, some "EURUSD", some "CALL", some 97, -100, false⟩] =
        ⟨[⟨3, some "EURUSD", some "CALL", some 97, -100, false⟩], []⟩ := by decide

/-- C6 amended: only fetched signals that pass the field-validity and
freshness checks are guaranteed a recorded outcome — such a signal always
ends marked `processed_by_autotrader` (whether its trade was placed or
skipped by the confidence gate).  Fetched signals that are malformed or stale
are skipped with no recorded transition and remain unprocessed. -/
theorem C6_valid_fresh_always_marked (u : Nat) (now : Int) (store : List Signal)
    (s : Signal) (hs : s ∈ fetchSignals store)
    (hA : falsyStr s.asset = false) (hD : falsyStr s.direction = false)
    (hF : now - s.created_at ≤ STALE_SECONDS) :
    ProcessedIn (check_new_signals_and_trade u now store).store s.id := by
  apply foldl_marks_valid u now (fetchSignals store) ⟨store, []⟩ s hs _ hA hD hF
  exact List.mem_map.mpr ⟨s, (mem_fetchSignals hs).1, rfl⟩

/-- Witness for C6 (amended) at a concrete fresh valid signal. -/
theorem C6_witness :
    (⟨4, some "EURUSD", some "CALL", some 50, 0, false⟩ : Signal) ∈
        fetchSignals [⟨4, some "EURUSD", some "CALL", some 50, 0, false⟩] ∧
      ProcessedIn
        (check_new_signals_and_trade 7 10
          [⟨4, some "EURUSD", some "CALL", some 50, 0, false⟩]).store 4 :=
  ⟨by decide,
    C6_valid_fresh_always_marked 7 10 [⟨4, some "EURUSD", some "CALL", some 50, 0, false⟩]
      ⟨4, some "EURUSD", some "CALL", some 50, 0, false⟩ (by decide) (by decide) (by decide)
      (by decide)⟩

/-! ### The per-user loop of the management tick -/

theorem contains_of_mem {a : Nat} {l : List Nat} (h : a ∈ l) : l.contains a = true := by
  simpa using h

theorem initStep_eq_of_hasKey (env : Env) (acc : LoopAcc) (u : User)
    (h1 : hasKey u.user_id acc.sessions = true) :
    initStep env acc u = { acc with tasks := acc.tasks ++ [u.user_id] } := by
  simp [initStep, h1]

theorem initStep_eq_of_raises (env : Env) (acc : LoopAcc) (u : User)
    (h1 : hasKey u.user_id acc.sessions = false) (h2 : env.initRaises u.user_id = true) :
    initStep env acc u = acc := by
  simp [initStep, h1, h2]

theorem initStep_eq_of_connect (env : Env) (acc : LoopAcc) (u : User)
    (h1 : hasKey u.user_id acc.sessions = false) (h2 : env.initRaises u.user_id = false)
    (h3 : env.connectOk u.user_id = true) :
    initStep env acc u =
      { sessions := acc.sessions ++
          [(u.user_id,
            ⟨decrypt_data env u.pocket_option_password, !u.is_real_account, true⟩)],
        opened := acc.opened ++ [u.user_id],
        attempted := acc.attempted ++ [(u.user_id, decrypt_data env u.pocket_option_password)],
        tasks := acc.tasks ++ [u.user_id] } := by
  have h4 : hasKey u.user_id (acc.sessions ++
      [(u.user_id,
        (⟨decrypt_data env u.pocket_option_password, !u.is_real_account, true⟩ :
          PocketOptionAPI))]) = true := by
    simp [hasKey]
  simp [initStep, h1, h2, h3, h4]

theorem initStep_eq_of_connect_fail (env : Env) (acc : LoopAcc) (u : User)
    (h1 : hasKey u.user_id acc.sessions = false) (h2 : env.initRaises u.user_id = false)
    (h3 : env.connectOk u.user_id = false) :
    initStep env acc u =
      { acc with attempted :=
          acc.attempted ++ [(u.user_id, decrypt_data env u.pocket_option_password)] } := by
  simp [initStep, h1, h2, h3]

theorem initStep_sessions_sub (env : Env) (acc : LoopAcc) (u : User) :
    (initStep env acc u).sessions = acc.sessions ∨
      ∃ s, (initStep env acc u).sessions = acc.sessions ++ [(u.user_id, s)] := by
  by_cases h1 : hasKey u.user_id acc.sessions = true
  · left; rw [initStep_eq_of_hasKey env acc u h1]
  · by_cases h2 : env.initRaises u.user_id = true
    · left; rw [initStep_eq_of_raises env acc u (by simpa using h1) h2]
    · by_cases h3 : env.connectOk u.user_id = true
      · right
        exact ⟨_, by rw [initStep_eq_of_connect env acc u (by simpa using h1)
          (by simpa using h2) h3]⟩
      · left
        rw [initStep_eq_of_connect_fail env acc u (by simpa using h1) (by simpa using h2)
          (by simpa using h3)]

theorem initStep_tasks_sub (env : Env) (acc : LoopAcc) (u : User) :
    (initStep env acc u).tasks = acc.tasks ∨
      (initStep env acc u).tasks = acc.tasks ++ [u.user_id] := by
  by_cases h1 : hasKey u.user_id acc.sessions = true
  · right; rw [initStep_eq_of_hasKey env acc u h1]
  · by_cases h2 : env.initRaises u.user_id = true
    · left; rw [initStep_eq_of_raises env acc u (by simpa using h1) h2]
    · by_cases h3 : env.connectOk u.user_id = true
      · right
        rw [initStep_eq_of_connect env acc u (by simpa using h1) (by simpa using h2) h3]
      · left
        rw [initStep_eq_of_connect_fail env acc u (by simpa using h1) (by simpa using h2)
          (by simpa using h3)]

theorem initStep_attempted_mono (env : Env) (acc : LoopAcc) (u : User)
    {x : Nat × String} (h : x ∈ acc.attempted) : x ∈ (initStep env acc u).attempted := by
  by_cases h1 : hasKey u.user_id acc.sessions = true
  · rw [initStep_eq_of_hasKey env acc u h1]; exact h
  · by_cases h2 : env.initRaises u.user_id = true
    · rw [initStep_eq_of_raises env acc u (by simpa using h1) h2]; exact h
    · by_cases h3 : env.connectOk u.user_id = true
      · rw [initStep_eq_of_connect env acc u (by simpa using h1) (by simpa using h2) h3]
        exact List.mem_append_left _ h
      · rw [initStep_eq_of_connect_fail env acc u (by simpa using h1) (by simpa using h2)
          (by simpa using h3)]
        exact List.mem_append_left _ h

theorem foldl_attempted_mono (env : Env) (L : List User) (acc : LoopAcc)
    {x : Nat × String} (h : x ∈ acc.attempted) :
    x ∈ ((L.foldl (initStep env) acc)).attempted := by
  induction L generalizing acc with
  | nil => exact h
  | cons w rest ih => exact ih _ (initStep_attempted_mono env acc w h)

theorem hasKey_initStep_mono (env : Env) (acc : LoopAcc) (u : User) (k : Nat)
    (h : hasKey k acc.sessions = true) : hasKey k (initStep env acc u).sessions = true := by
  rcases initStep_sessions_sub env acc u with he | ⟨s, he⟩ <;> rw [he]
  · exact h
  · simp only [hasKey, List.any_append] at h ⊢
    rw [h]
    rfl

theorem hasKey_foldl_mono (env : Env) (L : List User) (acc : LoopAcc) (k : Nat)
    (h : hasKey k acc.sessions = true) :
    hasKey k ((L.foldl (initStep env) acc)).sessions = true := by
  induction L generalizing acc with
  | nil => exact h
  | cons w rest ih => exact ih _ (hasKey_initStep_mono env acc w k h)

theorem foldl_initStep_keys (env : Env) (users : List User) (acc : LoopAcc)
    (desired : List Nat)
    (hacc : ∀ p ∈ acc.sessions, desired.contains p.1 = true)
    (husers : ∀ u ∈ users, desired.contains u.user_id = true) :
    ∀ p ∈ ((users.foldl (initStep env) acc)).sessions, desired.contains p.1 = true := by
  induction users generalizing acc with
  | nil => exact hacc
  | cons x rest ih =>
    rw [List.foldl_cons]
    refine ih _ ?_ (fun u hu => husers u (List.mem_cons_of_mem _ hu))
    intro p hp
    rcases initStep_sessions_sub env acc x with he | ⟨s, he⟩
    · rw [he] at hp
      exact hacc p hp
    · rw [he] at hp
      rcases List.mem_append.mp hp with h | h
      · exact hacc p h
      · have hpx : p = (x.user_id, s) := by simpa using h
        rw [hpx]
        exact husers x (List.mem_cons_self _ _)

theorem foldl_initStep_covered (env : Env) (users : List User) (acc : LoopAcc) :
    ∀ u ∈ users, hasKey u.user_id ((users.foldl (initStep env) acc)).sessions = true ∨
      env.initRaises u.user_id = true ∨ env.connectOk u.user_id = false := by
  induction users generalizing acc with
  | nil => intro u hu; cases hu
  | cons x rest ih =>
    intro u hu
    rcases List.mem_cons.mp hu with rfl | hmem
    · by_cases h1 : hasKey u.user_id acc.sessions = true
      · left
        rw [List.foldl_cons]
        exact hasKey_foldl_mono env rest _ _ (hasKey_initStep_mono env acc u _ h1)
      · by_cases h2 : env.initRaises u.user_id = true
        · exact Or.inr (Or.inl h2)
        · by_cases h3 : env.connectOk u.user_id = true
          · left
            rw [List.foldl_cons]
            apply hasKey_foldl_mono
            rw [initStep_eq_of_connect env acc u (by simpa using h1) (by simpa using h2) h3]
            simp [hasKey, List.any_append]
          · exact Or.inr (Or.inr (by simpa using h3))
    · rw [List.foldl_cons]
      exact ih _ u hmem

theorem foldl_initStep_noop (env : Env) (users : List User) (acc : LoopAcc)
    (h : ∀ u ∈ users, hasKey u.user_id acc.sessions = true ∨
      env.initRaises u.user_id = true ∨ env.connectOk u.user_id = false) :
    ((users.foldl (initStep env) acc)).sessions = acc.sessions ∧
      ((users.foldl (initStep env) acc)).opened = acc.opened := by
  induction users generalizing acc with
  | nil => exact ⟨rfl, rfl⟩
  | cons x rest ih =>
    have hstep : (initStep env acc x).sessions = acc.sessions ∧
        (initStep env acc x).opened = acc.opened := by
      rcases h x (List.mem_cons_self _ _) with h1 | h2 | h3
      · rw [initStep_eq_of_hasKey env acc x h1]
        exact ⟨rfl, rfl⟩
      · by_cases h1 : hasKey x.user_id acc.sessions = true
        · rw [initStep_eq_of_hasKey env acc x h1]; exact ⟨rfl, rfl⟩
        · rw [initStep_eq_of_raises env acc x (by simpa using h1) h2]; exact ⟨rfl, rfl⟩
      · by_cases h1 : hasKey x.user_id acc.sessions = true
        · rw [initStep_eq_of_hasKey env acc x h1]; exact ⟨rfl, rfl⟩
        · by_cases h2 : env.initRaises x.user_id = true
          · rw [initStep_eq_of_raises env acc x (by simpa using h1) h2]; exact ⟨rfl, rfl⟩
          · rw [initStep_eq_of_connect_fail env acc x (by simpa using h1) (by simpa using h2) h3]
            exact ⟨rfl, rfl⟩
    rw [List.foldl_cons]
    have hrest := ih (initStep env acc x) (by
      intro w hw
      rcases h w (List.mem_cons_of_mem _ hw) with ha | hb
      · exact Or.inl (by rw [hstep.1]; exact ha)
      · exact Or.inr hb)
    exact ⟨hrest.1.trans hstep.1, hrest.2.trans hstep.2⟩

/-! ### C8: reconciliation is idempotent -/

/-- C8: running the session-reconciliation part of
`autotrader_management_loop` a second time over the same active-user list
performs no additional session opens and no additional closes — the session
map is unchanged by the second run (open attempts for users whose `connect`
keeps failing may recur, but no session is opened or closed). -/
theorem C8_reconcile_idempotent (env : Env) (users : List User)
    (sessions₀ : List (Nat × PocketOptionAPI)) (store₀ store₁ : List Signal)
    (now₀ now₁ : Int) :
    (management_tick env users
        (management_tick env users sessions₀ store₀ now₀).sessions store₁ now₁).sessions =
      (management_tick env users sessions₀ store₀ now₀).sessions ∧
    (management_tick env users
        (management_tick env users sessions₀ store₀ now₀).sessions store₁ now₁).opened = [] ∧
    (management_tick env users
        (management_tick env users sessions₀ store₀ now₀).sessions store₁ now₁).closed = [] := by
  have hS₁def : (management_tick env users sessions₀ store₀ now₀).sessions =
      (users.foldl (initStep env)
        ⟨sessions₀.filter (fun p => (users.map User.user_id).contains p.1), [], [], []⟩).sessions :=
    rfl
  have hkeys : ∀ p ∈ (management_tick env users sessions₀ store₀ now₀).sessions,
      (users.map User.user_id).contains p.1 = true := by
    rw [hS₁def]
    apply foldl_initStep_keys
    · intro p hp
      exact (List.mem_filter.mp hp).2
    · intro u hu
      exact contains_of_mem (List.mem_map.mpr ⟨u, hu, rfl⟩)
  have hkept₂ : (management_tick env users sessions₀ store₀ now₀).sessions.filter
      (fun p => (users.map User.user_id).contains p.1) =
      (management_tick env users sessions₀ store₀ now₀).sessions :=
    List.filter_eq_self.mpr hkeys
  have hclosed₂ : (management_tick env users sessions₀ store₀ now₀).sessions.filter
      (fun p => !(users.map User.user_id).contains p.1) = [] := by
    rw [List.filter_eq_nil_iff]
    intro p hp
    rw [hkeys p hp]
    simp
  have hcov : ∀ u ∈ users,
      hasKey u.user_id (management_tick env users sessions₀ store₀ now₀).sessions = true ∨
      env.initRaises u.user_id = true ∨ env.connectOk u.user_id = false := by
    rw [hS₁def]
    exact foldl_initStep_covered env users _
  have hnoop := foldl_initStep_noop env users
    ⟨(management_tick env users sessions₀ store₀ now₀).sessions, [], [], []⟩ hcov
  refine ⟨?_, ?_, ?_⟩
  · show (users.foldl (initStep env)
      ⟨(management_tick env users sessions₀ store₀ now₀).sessions.filter
        (fun p => (users.map User.user_id).contains p.1), [], [], []⟩).sessions =
      (management_tick env users sessions₀ store₀ now₀).sessions
    rw [hkept₂]
    exact hnoop.1
  · show (users.foldl (initStep env)
      ⟨(management_tick env users sessions₀ store₀ now₀).sessions.filter
        (fun p => (users.map User.user_id).contains p.1), [], [], []⟩).opened = []
    rw [hkept₂]
    exact hnoop.2
  · show ((management_tick env users sessions₀ store₀ now₀).sessions.filter
      (fun p => !(users.map User.user_id).contains p.1)).map Prod.fst = []
    rw [hclosed₂]
    rfl

theorem hasKey_filter_desired (k : Nat) (l : List (Nat × PocketOptionAPI))
    (desired : List Nat) (h : desired.contains k = true) :
    hasKey k (l.filter (fun p => desired.contains p.1)) = hasKey k l := by
  induction l with
  | nil => rfl
  | cons p ps ih =>
    rw [List.filter_cons]
    by_cases hq : desired.contains p.1 = true
    · rw [if_pos hq]
      simp only [hasKey, List.any_cons]
      simp only [hasKey] at ih
      rw [ih]
    · rw [if_neg hq]
      have hpk : p.1 ≠ k := fun he => hq (he ▸ h)
      have hbeq : (p.1 == k) = false := by simp [hpk]
      simp only [hasKey, List.any_cons]
      simp only [hasKey] at ih
      rw [ih, hbeq, Bool.false_or]

theorem initStep_frame (env : Env) (acc : LoopAcc) (u : User) (k : Nat)
    (hk : u.user_id ≠ k) :
    ((k ∈ (initStep env acc u).tasks) ↔ k ∈ acc.tasks) ∧
      hasKey k (initStep env acc u).sessions = hasKey k acc.sessions := by
  constructor
  · rcases initStep_tasks_sub env acc u with he | he
    · rw [he]
    · rw [he]
      constructor
      · intro h
        rcases List.mem_append.mp h with h | h
        · exact h
        · have hk2 : k = u.user_id := by simpa using h
          exact absurd hk2.symm hk
      · exact fun h => List.mem_append_left _ h
  · rcases initStep_sessions_sub env acc u with he | ⟨s, he⟩
    · rw [he]
    · rw [he]
      simp [hasKey, List.any_append, hk]

theorem foldl_initStep_frame (env : Env) (L : List User) (acc : LoopAcc) (k : Nat)
    (h : ∀ w ∈ L, w.user_id ≠ k) :
    ((k ∈ ((L.foldl (initStep env) acc)).tasks) ↔ k ∈ acc.tasks) ∧
      hasKey k ((L.foldl (initStep env) acc)).sessions = hasKey k acc.sessions := by
  induction L generalizing acc with
  | nil => exact ⟨Iff.rfl, rfl⟩
  | cons x rest ih =>
    have hx := initStep_frame env acc x k (h x (List.mem_cons_self _ _))
    have hr := ih (initStep env acc x) (fun w hw => h w (List.mem_cons_of_mem _ hw))
    exact ⟨hr.1.trans hx.1, hr.2.trans hx.2⟩

theorem initStep_self (env : Env) (acc : LoopAcc) (v : User) :
    (v.user_id ∈ (initStep env acc v).tasks ↔
      (v.user_id ∈ acc.tasks ∨ hasKey v.user_id acc.sessions = true ∨
        (env.initRaises v.user_id = false ∧ env.connectOk v.user_id = true))) ∧
      hasKey v.user_id (initStep env acc v).sessions =
        (hasKey v.user_id acc.sessions ||
          (!env.initRaises v.user_id && env.connectOk v.user_id)) := by
  by_cases h1 : hasKey v.user_id acc.sessions = true
  · rw [initStep_eq_of_hasKey env acc v h1]
    constructor
    · simp [h1]
    · simp [h1]
  · have h1f : hasKey v.user_id acc.sessions = false := by simpa using h1
    by_cases h2 : env.initRaises v.user_id = true
    · rw [initStep_eq_of_raises env acc v h1f h2]
      constructor
      · simp [h1f, h2]
      · simp [h1f, h2]
    · have h2f : env.initRaises v.user_id = false := by simpa using h2
      by_cases h3 : env.connectOk v.user_id = true
      · rw [initStep_eq_of_connect env acc v h1f h2f h3]
        constructor
        · simp [h2f, h3]
        · simp [hasKey, List.any_append, h1f, h2f, h3]
      · have h3f : env.connectOk v.user_id = false := by simpa using h3
        rw [initStep_eq_of_connect_fail env acc v h1f h2f h3f]
        constructor
        · simp [h1f, h2f, h3f]
        · simp [h1f, h2f, h3f]

/-! ### C9: per-user failure isolation -/

/-- C9: whether user `v` is reconciled (holds a session after the tick) and
has its signals checked depends only on `v`'s own data — a raised exception
while opening another user `u`'s session does not abort the tick for `v`:
`v`'s check runs precisely when `v` already had a session or `v`'s own open
succeeded. -/
theorem C9_per_user_isolation (env : Env) (users : List User)
    (sessions₀ : List (Nat × PocketOptionAPI)) (store : List Signal) (now : Int)
    (u v : User) (_hu : u ∈ users) (hv : v ∈ users)
    (hNodup : (users.map User.user_id).Nodup)
    (_hne : v.user_id ≠ u.user_id)
    (_hraise : env.initRaises u.user_id = true) :
    (v.user_id ∈ (management_tick env users sessions₀ store now).tasks ↔
      (hasKey v.user_id sessions₀ = true ∨
        (env.initRaises v.user_id = false ∧ env.connectOk v.user_id = true))) ∧
      hasKey v.user_id (management_tick env users sessions₀ store now).sessions =
        (hasKey v.user_id sessions₀ ||
          (!env.initRaises v.user_id && env.connectOk v.user_id)) := by
  obtain ⟨l₁, l₂, hsplit⟩ := List.append_of_mem hv
  subst hsplit
  have hmapnd := hNodup
  rw [List.map_append, List.map_cons] at hmapnd
  obtain ⟨hnd1, hnd2, hdisj⟩ := List.nodup_append.mp hmapnd
  have hv2 : v.user_id ∉ l₂.map User.user_id := (List.nodup_cons.mp hnd2).1
  have hv1 : v.user_id ∉ l₁.map User.user_id := fun hmem =>
    hdisj hmem (List.mem_cons_self _ _)
  have hnotin1 : ∀ w ∈ l₁, w.user_id ≠ v.user_id := fun w hw heq =>
    hv1 (heq ▸ List.mem_map_of_mem _ hw)
  have hnotin2 : ∀ w ∈ l₂, w.user_id ≠ v.user_id := fun w hw heq =>
    hv2 (heq ▸ List.mem_map_of_mem _ hw)
  have hdesired : (((l₁ ++ v :: l₂).map User.user_id)).contains v.user_id = true :=
    contains_of_mem (List.mem_map.mpr ⟨v, hv, rfl⟩)
  have hkept : hasKey v.user_id
      (sessions₀.filter (fun p => (((l₁ ++ v :: l₂).map User.user_id)).contains p.1)) =
      hasKey v.user_id sessions₀ := hasKey_filter_desired _ _ _ hdesired
  have hfold : (l₁ ++ v :: l₂).foldl (initStep env)
      ⟨sessions₀.filter (fun p => (((l₁ ++ v :: l₂).map User.user_id)).contains p.1),
        [], [], []⟩ =
      l₂.foldl (initStep env)
        (initStep env
          (l₁.foldl (initStep env)
            ⟨sessions₀.filter
              (fun p => (((l₁ ++ v :: l₂).map User.user_id)).contains p.1), [], [], []⟩) v) := by
    rw [List.foldl_append, List.foldl_cons]
  have hframe1 := foldl_initStep_frame env l₁
    ⟨sessions₀.filter (fun p => (((l₁ ++ v :: l₂).map User.user_id)).contains p.1),
      [], [], []⟩ v.user_id hnotin1
  have hself := initStep_self env
    (l₁.foldl (initStep env)
      ⟨sessions₀.filter (fun p => (((l₁ ++ v :: l₂).map User.user_id)).contains p.1),
        [], [], []⟩) v
  have hframe2 := foldl_initStep_frame env l₂
    (initStep env
      (l₁.foldl (initStep env)
        ⟨sessions₀.filter (fun p => (((l₁ ++ v :: l₂).map User.user_id)).contains p.1),
          [], [], []⟩) v) v.user_id hnotin2
  constructor
  · show v.user_id ∈ ((l₁ ++ v :: l₂).foldl (initStep env)
      ⟨sessions₀.filter (fun p => (((l₁ ++ v :: l₂).map User.user_id)).contains p.1),
        [], [], []⟩).tasks ↔ _
    rw [hfold]
    rw [hframe2.1, hself.1, hframe1.1, hframe1.2, hkept]
    simp
  · show hasKey v.user_id ((l₁ ++ v :: l₂).foldl (initStep env)
      ⟨sessions₀.filter (fun p => (((l₁ ++ v :: l₂).map User.user_id)).contains p.1),
        [], [], []⟩).sessions = _
    rw [hfold]
    rw [hframe2.2, hself.2, hframe1.2, hkept]

/-- Witness for C9: user 1's session initialization raises, user 2 is still
checked in the same tick. -/
theorem C9_witness :
    ((2 : Nat) ∈ (management_tick ⟨fun _ => none, fun n => n == 1, fun _ => true⟩
        [⟨1, "a", false⟩, ⟨2, "b", false⟩] [] [] 0).tasks ↔
      (hasKey 2 ([] : List (Nat × PocketOptionAPI)) = true ∨
        ((Env.initRaises ⟨fun _ => none, fun n => n == 1, fun _ => true⟩ 2 = false) ∧
          (Env.connectOk ⟨fun _ => none, fun n => n == 1, fun _ => true⟩ 2 = true)))) ∧
      hasKey 2 (management_tick ⟨fun _ => none, fun n => n == 1, fun _ => true⟩
          [⟨1, "a", false⟩, ⟨2, "b", false⟩] [] [] 0).sessions =
        (hasKey 2 ([] : List (Nat × PocketOptionAPI)) ||
          (!(Env.initRaises ⟨fun _ => none, fun n => n == 1, fun _ => true⟩ 2) &&
            Env.connectOk ⟨fun _ => none, fun n => n == 1, fun _ => true⟩ 2)) :=
  C9_per_user_isolation ⟨fun _ => none, fun n => n == 1, fun _ => true⟩
    [⟨1, "a", false⟩, ⟨2, "b", false⟩] [] [] 0
    ⟨1, "a", false⟩ ⟨2, "b", false⟩ (by decide) (by decide) (by decide) (by decide) rfl

/-! ### C7: decryption failure handling -/

/-- C7 counterexample: the claim fails on the code.  `decrypt_data` returns
the empty string on a malformed/key-mismatched credential instead of raising
a `DecryptionError`, and the user is not excluded from the active set: a
session open is attempted with the empty credential, the stub `connect`
succeeds, the user enters the session map and its signals are traded. -/
theorem C7_counterexample :
    decrypt_data ⟨fun _ => none, fun _ => false, fun _ => true⟩ "garbage" = "" ∧
      (management_tick ⟨fun _ => none, fun _ => false, fun _ => true⟩
          [⟨1, "garbage", false⟩] [] [⟨5, some "EURUSD", some "CALL", some 97, 0, false⟩]
          10).attempted = [(1, "")] ∧
      (management_tick ⟨fun _ => none, fun _ => false, fun _ => true⟩
          [⟨1, "garbage", false⟩] [] [⟨5, some "EURUSD", some "CALL", some 97, 0, false⟩]
          10).sessions = [(1, ⟨"", true, true⟩)] ∧
      (management_tick ⟨fun _ => none, fun _ => false, fun _ => true⟩
          [⟨1, "garbage", false⟩] [] [⟨5, some "EURUSD", some "CALL", some 97, 0, false⟩]
          10).trades = [⟨1, 5, "EURUSD", "call"⟩] := by decide

/-- C7 amended: on a malformed/key-mismatched stored credential,
`decrypt_data` catches the failure and returns the empty string (no
`DecryptionError` escapes), and the user is NOT excluded from the active
trading set: a session open is still attempted with the empty credential,
and if `connect` succeeds (the shipped stub always does) the user holds a
session for the tick. -/
theorem C7_decrypt_failure_not_excluded (env : Env) (users : List User)
    (store : List Signal) (now : Int) (u : User) (hu : u ∈ users)
    (hNodup : (users.map User.user_id).Nodup)
    (hdec : env.fernetDecrypt u.pocket_option_password = none)
    (hraise : env.initRaises u.user_id = false) :
    decrypt_data env u.pocket_option_password = "" ∧
      (u.user_id, "") ∈ (management_tick env users [] store now).attempted ∧
      (env.connectOk u.user_id = true →
        hasKey u.user_id (management_tick env users [] store now).sessions = true) := by
  have hd : decrypt_data env u.pocket_option_password = "" := by
    simp [decrypt_data, hdec]
  obtain ⟨l₁, l₂, hsplit⟩ := List.append_of_mem hu
  subst hsplit
  have hmapnd := hNodup
  rw [List.map_append, List.map_cons] at hmapnd
  obtain ⟨hnd1, hnd2, hdisj⟩ := List.nodup_append.mp hmapnd
  have hu1 : u.user_id ∉ l₁.map User.user_id := fun hmem =>
    hdisj hmem (List.mem_cons_self _ _)
  have hnotin1 : ∀ w ∈ l₁, w.user_id ≠ u.user_id := fun w hw heq =>
    hu1 (heq ▸ List.mem_map_of_mem _ hw)
  have hkept : (([] : List (Nat × PocketOptionAPI)).filter
      (fun p => (((l₁ ++ u :: l₂).map User.user_id)).contains p.1)) = [] := rfl
  have hfold : (l₁ ++ u :: l₂).foldl (initStep env)
      (⟨[], [], [], []⟩ : LoopAcc) =
      l₂.foldl (initStep env)
        (initStep env (l₁.foldl (initStep env) (⟨[], [], [], []⟩ : LoopAcc)) u) := by
    rw [List.foldl_append, List.foldl_cons]
  have hframe1 := foldl_initStep_frame env l₁ (⟨[], [], [], []⟩ : LoopAcc) u.user_id hnotin1
  have hA : hasKey u.user_id
      ((l₁.foldl (initStep env) (⟨[], [], [], []⟩ : LoopAcc))).sessions = false := by
    rw [hframe1.2]
    rfl
  refine ⟨hd, ?_, ?_⟩
  · show (u.user_id, "") ∈ ((l₁ ++ u :: l₂).foldl (initStep env)
      (⟨[], [], [], []⟩ : LoopAcc)).attempted
    rw [hfold]
    apply foldl_attempted_mono
    by_cases h3 : env.connectOk u.user_id = true
    · rw [initStep_eq_of_connect env _ u hA hraise h3]
      rw [hd]
      exact List.mem_append_right _ (List.mem_singleton.mpr rfl)
    · rw [initStep_eq_of_connect_fail env _ u hA hraise (by simpa using h3)]
      rw [hd]
      exact List.mem_append_right _ (List.mem_singleton.mpr rfl)
  · intro h3
    show hasKey u.user_id ((l₁ ++ u :: l₂).foldl (initStep env)
      (⟨[], [], [], []⟩ : LoopAcc)).sessions = true
    rw [hfold]
    apply hasKey_foldl_mono
    rw [initStep_eq_of_connect env _ u hA hraise h3]
    simp [hasKey, List.any_append]

/-- Witness for C7 (amended) with a concretely failing credential. -/
theorem C7_witness :
    decrypt_data ⟨fun _ => none, fun _ => false, fun _ => true⟩ "badtoken" = "" ∧
      ((9 : Nat), "") ∈ (management_tick ⟨fun _ => none, fun _ => false, fun _ => true⟩
        [⟨9, "badtoken", false⟩] [] [] 0).attempted ∧
      (Env.connectOk ⟨fun _ => none, fun _ => false, fun _ => true⟩ 9 = true →
        hasKey 9 (management_tick ⟨fun _ => none, fun _ => false, fun _ => true⟩
          [⟨9, "badtoken", false⟩] [] [] 0).sessions = true) :=
  C7_decrypt_failure_not_excluded ⟨fun _ => none, fun _ => false, fun _ => true⟩
    [⟨9, "badtoken", false⟩] [] 0 ⟨9, "badtoken", false⟩
    (by decide) (by decide) rfl rfl

example : trade_on_signal 95 = true := by decide

example : trade_on_signal 94 = false := by decide

example :
    check_new_signals_and_trade 7 10
      [⟨1, some "EURUSD", some "CALL", some 97, 0, false⟩] =
    ⟨[⟨1, some "EURUSD", some "CALL", some 97, 0, true⟩],
     [⟨7, 1, "EURUSD", "call"⟩]⟩ := by decide

end Autotrader
